import Mathlib

/-!
# KeyCounter: per-frame edge detection and the one-second press window

A shallow embedding of `KeyCounter/main.cpp`: the press-counting part of
`Button::draw`, the two key lambdas bound in `Counter::init`, and the
timestamp log of `Counter::draw` (append, erase-while-iterating prune, kps).
Rendering calls (shapes, text, colours) carry no state that the counting
logic reads and are left out.

Conventions of the embedding

* `unsigned` is a `Nat` reduced modulo `2 ^ 32` at every increment.
* A `time_point` of `std::chrono::high_resolution_clock` is the `Int` number
  of clock ticks since the epoch; the number of ticks in one millisecond is
  the parameter `tpm` (`1000000` for a nanosecond clock).  The conversion
  `duration_cast<milliseconds>` is integer division rounding toward zero.
  Tick counts and their differences stay far inside the 64-bit representation
  and are not reduced.
* The answer of `GetAsyncKeyState` is the 16-bit pattern of the returned
  `SHORT`, a `Nat` below `2 ^ 16`.
-/

namespace KeyCounter

/-! ## Constants -/

/-- `constexpr char char_0 = 'A'`, passed to `GetAsyncKeyState` as the
virtual-key code 65. -/
def char_0 : Nat := 65

/-- `constexpr char char_1 = 'S'`, passed to `GetAsyncKeyState` as the
virtual-key code 83. -/
def char_1 : Nat := 83

/-- Number of values of the 32-bit type `unsigned`. -/
def UINT_SIZE : Nat := 4294967296

/-! ## Input of one frame -/

/-- The answers of the operating system during one frame: for each
virtual-key code the 16-bit pattern that `GetAsyncKeyState` returns. -/
abbrev KeyState := Nat → Nat

/-- `using button_f = std::function<void(bool&)>`: the callback reads the
key state of the frame and writes `pushed`. -/
abbrev button_f := KeyState → Bool

/-- What one iteration of the render loop observes: the value of
`high_resolution_clock::now()` in ticks and the key state. -/
structure Frame where
  now : Int
  os : KeyState

/-! ## Button -/

/-- The counting fields of `class Button`. -/
structure Button where
  func : button_f
  pushed_prev : Bool
  onpush : Bool
  key_count : Nat

/-- `Button::draw` without the rendering calls. -/
def Button.draw (b : Button) (os : KeyState) : Button :=
  let pushed := b.func os
  let onpush := pushed && !b.pushed_prev
  { func := b.func
    pushed_prev := pushed
    onpush := onpush
    key_count := if onpush then (b.key_count + 1) % UINT_SIZE else b.key_count }

/-- `Button::get_onpush`. -/
def Button.get_onpush (b : Button) : Bool := b.onpush

/-- The same button drawn on consecutive frames. -/
def Button.draw_frames (b : Button) (frames : List KeyState) : Button :=
  frames.foldl Button.draw b

/-! ## The key lambdas of `Counter::init` -/

/-- The implicit conversion `SHORT` to `bool` in
`pushed = GetAsyncKeyState(...)`: true for every non-zero value. -/
def short_to_bool (v : Nat) : Bool := v != 0

/-- `[](bool& pushed) { pushed = GetAsyncKeyState(char_0); }`. -/
def lambda_a : button_f := fun os => short_to_bool (os char_0)

/-- `[](bool& pushed) { pushed = GetAsyncKeyState(char_1); }`. -/
def lambda_s : button_f := fun os => short_to_bool (os char_1)

/-- The key is down at the time of the query: the most significant bit of
the 16-bit answer of `GetAsyncKeyState` is set. -/
def key_is_down (v : Nat) : Bool := v.testBit 15

/-! ## Counter -/

/-- The static members of `struct Counter` that the counting logic uses. -/
structure Counter where
  buttons : List Button
  log : List Int
  kps : Int

/-- `Counter::init`, together with the default member initialisers of
`Button` and the empty static `log`. -/
def Counter.init : Counter :=
  { buttons := [ { func := lambda_a, pushed_prev := false, onpush := false, key_count := 0 },
                 { func := lambda_s, pushed_prev := false, onpush := false, key_count := 0 } ]
    log := []
    kps := 0 }

/-- `duration_cast<milliseconds>(d).count()` of a duration of `d` ticks. -/
def to_ms (tpm : Nat) (d : Int) : Int := Int.tdiv d tpm

/-- The first loop of `Counter::draw`: for each button in order, push `now`
when the button reports `get_onpush()`, then draw the button. -/
def Counter.draw_buttons (now : Int) (os : KeyState) :
    List Button → List Int → List Button × List Int
  | [], log => ([], log)
  | b :: bs, log =>
    let log1 := if b.get_onpush then log ++ [now] else log
    let b1 := b.draw os
    let r := Counter.draw_buttons now os bs log1
    (b1 :: r.1, r.2)

/-- The second loop of `Counter::draw`.  The iterator is the index `itr`
into `log`; `log.erase(itr)` removes the element at that index and returns
an iterator to the same index.  The `int kps_temp` is incremented at most
`log.size()` times, so it stays in range for every log of fewer than 2^31
entries; it is kept as an `Int`. -/
def Counter.prune_loop (tpm : Nat) (now : Int) (log : List Int) (itr : Nat) (kps_temp : Int) :
    List Int × Int :=
  if h : itr < log.length then
    if to_ms tpm (now - log[itr]) > 1000 then
      Counter.prune_loop tpm now (log.eraseIdx itr) itr kps_temp
    else
      Counter.prune_loop tpm now log (itr + 1) (kps_temp + 1)
  else
    (log, kps_temp)
termination_by log.length - itr
decreasing_by
  all_goals simp_wf
  · rw [List.length_eraseIdx]
    simp only [h, if_true]
    omega
  · omega

/-- `Counter::draw` without the rendering calls. -/
def Counter.draw (tpm : Nat) (f : Frame) (c : Counter) : Counter :=
  let now := f.now
  let r := Counter.draw_buttons now f.os c.buttons c.log
  let p := Counter.prune_loop tpm now r.2 0 0
  { buttons := r.1, log := p.1, kps := p.2 }

/-- The render loop of `main`: one `Counter::draw` per frame. -/
def run (tpm : Nat) (c : Counter) (frames : List Frame) : Counter :=
  frames.foldl (fun s f => Counter.draw tpm f s) c

/-! ## Specification-side definitions -/

/-- The test of the prune loop as the specification words it: the age
`now - t`, converted to whole milliseconds, is not greater than 1000. -/
def keeps (tpm : Nat) (now : Int) (t : Int) : Bool := !decide (to_ms tpm (now - t) > 1000)

/-- The prune as the specification words it: filter the log with `keeps`. -/
def prune_spec (tpm : Nat) (now : Int) (log : List Int) : List Int :=
  log.filter (keeps tpm now)

/-- Ghost count of the `log.push_back` calls executed while the frames are
drawn: in each frame, the growth of the log over the first loop of
`Counter::draw`. -/
def pushes (tpm : Nat) : Counter → List Frame → Nat
  | _, [] => 0
  | c, f :: fs =>
    ((Counter.draw_buttons f.now f.os c.buttons c.log).2.length - c.log.length) +
      pushes tpm (Counter.draw tpm f c) fs

/-- No increment of a press count wraps while the frames are drawn: every
button that detects an edge in a frame enters it below the largest
`unsigned` value. -/
def no_wrap (tpm : Nat) : Counter → List Frame → Bool
  | _, [] => true
  | c, f :: fs =>
    c.buttons.all (fun b => !(b.func f.os && !b.pushed_prev) ||
      decide (b.key_count + 1 < UINT_SIZE)) &&
      no_wrap tpm (Counter.draw tpm f c) fs

/-- Number of buttons whose onpush flag is set. -/
def flagged (c : Counter) : Nat := c.buttons.countP Button.get_onpush

/-- Sum of the press counts of the buttons. -/
def total_count (c : Counter) : Nat := (c.buttons.map Button.key_count).sum

/-! ## The prune loop -/

theorem prune_loop_eq (tpm : Nat) (now : Int) (log : List Int) (itr : Nat) (kps_temp : Int) :
    Counter.prune_loop tpm now log itr kps_temp =
      (log.take itr ++ (log.drop itr).filter (keeps tpm now),
        kps_temp + ((log.drop itr).filter (keeps tpm now)).length) := by
  induction log, itr, kps_temp using Counter.prune_loop.induct tpm now with
  | case1 log itr k h hgt ih =>
    rw [Counter.prune_loop, dif_pos h, if_pos hgt, ih]
    have hdrop : log.drop itr = log[itr] :: log.drop (itr + 1) := List.drop_eq_getElem_cons h
    have hk : keeps tpm now log[itr] = false := by simp [keeps, hgt]
    have he : log.eraseIdx itr = log.take itr ++ log.drop (itr + 1) :=
      List.eraseIdx_eq_take_drop_succ log itr
    have hlen : (log.take itr).length = itr := by
      rw [List.length_take]; omega
    have h1 : (log.eraseIdx itr).take itr = log.take itr := by
      rw [he, List.take_append_eq_append_take, hlen]; simp
    have h2 : (log.eraseIdx itr).drop itr = log.drop (itr + 1) := by
      rw [he, List.drop_append_eq_append_drop, hlen]; simp
    rw [h1, h2, hdrop, List.filter_cons_of_neg (by simp [hk])]
  | case2 log itr k h hle ih =>
    rw [Counter.prune_loop, dif_pos h, if_neg hle, ih]
    have hdrop : log.drop itr = log[itr] :: log.drop (itr + 1) := List.drop_eq_getElem_cons h
    have hk : keeps tpm now log[itr] = true := by simp [keeps, hle]
    have htake : log.take (itr + 1) = log.take itr ++ [log[itr]] := by
      rw [List.take_succ, List.getElem?_eq_getElem h]; rfl
    rw [hdrop, List.filter_cons_of_pos hk, htake]
    simp only [List.append_assoc, List.singleton_append, List.length_cons, Prod.mk.injEq,
      true_and]
    push_cast
    ring
  | case3 log itr k h =>
    rw [Counter.prune_loop, dif_neg h]
    have hl : log.length ≤ itr := Nat.le_of_not_lt h
    rw [List.take_of_length_le hl, List.drop_of_length_le hl]
    simp

/-! ## The button loop and the whole frame -/

theorem draw_buttons_fst (now : Int) (os : KeyState) (bs : List Button) (log : List Int) :
    (Counter.draw_buttons now os bs log).1 = bs.map (fun b => b.draw os) := by
  induction bs generalizing log with
  | nil => rfl
  | cons b bs ih => simp only [Counter.draw_buttons, List.map_cons, ih]

theorem draw_buttons_snd (now : Int) (os : KeyState) (bs : List Button) (log : List Int) :
    (Counter.draw_buttons now os bs log).2 =
      log ++ List.replicate (bs.countP Button.get_onpush) now := by
  induction bs generalizing log with
  | nil => simp [Counter.draw_buttons]
  | cons b bs ih =>
    simp only [Counter.draw_buttons, ih, List.countP_cons]
    cases hb : b.get_onpush
    · simp
    · simp [List.replicate_succ, Nat.add_comm]

theorem keeps_now (tpm : Nat) (now : Int) : keeps tpm now now = true := by
  simp [keeps, to_ms]

theorem draw_eq (tpm : Nat) (f : Frame) (c : Counter) :
    Counter.draw tpm f c =
      { buttons := c.buttons.map (fun b => b.draw f.os)
        log := prune_spec tpm f.now c.log ++
          List.replicate (c.buttons.countP Button.get_onpush) f.now
        kps := ((prune_spec tpm f.now c.log ++
          List.replicate (c.buttons.countP Button.get_onpush) f.now).length : Nat) } := by
  have hf : (List.replicate (c.buttons.countP Button.get_onpush) f.now).filter
      (keeps tpm f.now) = List.replicate (c.buttons.countP Button.get_onpush) f.now := by
    rw [List.filter_eq_self]
    intro t ht
    rw [List.eq_of_mem_replicate ht]
    exact keeps_now tpm f.now
  simp only [Counter.draw, prune_loop_eq, draw_buttons_fst, draw_buttons_snd, List.take_zero,
    List.drop_zero, List.nil_append, List.filter_append, hf, prune_spec, zero_add]

theorem run_nil (tpm : Nat) (c : Counter) : run tpm c [] = c := rfl

theorem run_cons (tpm : Nat) (c : Counter) (f : Frame) (fs : List Frame) :
    run tpm c (f :: fs) = run tpm (Counter.draw tpm f c) fs := rfl

theorem run_append (tpm : Nat) (c : Counter) (fs gs : List Frame) :
    run tpm c (fs ++ gs) = run tpm (run tpm c fs) gs := by
  simp [run, List.foldl_append]

theorem to_ms_mono (tpm : Nat) {a b : Int} (h : a ≤ b) : to_ms tpm a ≤ to_ms tpm b := by
  unfold to_ms
  rcases Nat.eq_zero_or_pos tpm with h0 | hpos
  · subst h0; simp
  · have hp : (0 : Int) < (tpm : Int) := by exact_mod_cast hpos
    rcases le_or_lt 0 a with ha | ha
    · have hb : 0 ≤ b := le_trans ha h
      rw [Int.tdiv_eq_ediv ha hp.le, Int.tdiv_eq_ediv hb hp.le]
      exact Int.ediv_le_ediv hp h
    · rcases le_or_lt 0 b with hb | hb
      · have h1 : Int.tdiv a tpm ≤ 0 := by
          have := Int.tdiv_nonneg (a := -a) (b := tpm) (by omega) (by omega)
          rw [Int.neg_tdiv] at this
          omega
        have h2 : 0 ≤ Int.tdiv b tpm := Int.tdiv_nonneg hb (by omega)
        omega
      · have e1 : Int.tdiv a tpm = -((-a) / tpm) := by
          rw [← Int.tdiv_eq_ediv (by omega) hp.le, Int.neg_tdiv, neg_neg]
        have e2 : Int.tdiv b tpm = -((-b) / tpm) := by
          rw [← Int.tdiv_eq_ediv (by omega) hp.le, Int.neg_tdiv, neg_neg]
        rw [e1, e2]
        have := Int.ediv_le_ediv hp (show -b ≤ -a by omega)
        omega

theorem to_ms_le_iff (tpm : Nat) (hpos : 0 < tpm) (d : Int) :
    to_ms tpm d ≤ 1000 ↔ d < 1001 * tpm := by
  unfold to_ms
  have hp : (0 : Int) < (tpm : Int) := by exact_mod_cast hpos
  rcases le_or_lt 0 d with hd | hd
  · rw [Int.tdiv_eq_ediv hd hp.le]
    constructor
    · intro h
      have := Int.lt_ediv_add_one_mul_self d hp
      nlinarith
    · intro h
      have : d / (tpm : Int) < 1001 := Int.ediv_lt_of_lt_mul hp h
      omega
  · have h1 : Int.tdiv d tpm ≤ 0 := by
      have := Int.tdiv_nonneg (a := -d) (b := tpm) (by omega) (by omega)
      rw [Int.neg_tdiv] at this
      omega
    constructor
    · intro _
      nlinarith
    · intro _
      omega

/-! ## Button: edge detection and tally -/

theorem Button.draw_func (b : Button) (os : KeyState) : (b.draw os).func = b.func := rfl

theorem Button.draw_pushed_prev (b : Button) (os : KeyState) :
    (b.draw os).pushed_prev = b.func os := rfl

theorem Button.draw_held (b : Button) (os : KeyState) (hprev : b.pushed_prev = true) :
    (b.draw os).onpush = false ∧ (b.draw os).key_count = b.key_count := by
  simp [Button.draw, hprev]

theorem Button.draw_frames_held (held : List KeyState) (b : Button)
    (hprev : b.pushed_prev = true) (hheld : ∀ o ∈ held, b.func o = true) :
    (b.draw_frames held).key_count = b.key_count ∧
      (held ≠ [] → (b.draw_frames held).onpush = false) := by
  induction held generalizing b with
  | nil => simp [Button.draw_frames]
  | cons o rest ih =>
    have ho : b.func o = true := hheld o (List.mem_cons_self o rest)
    have hstep := Button.draw_held b o hprev
    have hprev1 : (b.draw o).pushed_prev = true := by
      rw [Button.draw_pushed_prev]; exact ho
    have hrest : ∀ o1 ∈ rest, (b.draw o).func o1 = true := fun o1 h1 =>
      hheld o1 (List.mem_cons_of_mem o h1)
    have hih := ih (b.draw o) hprev1 hrest
    have hfold : b.draw_frames (o :: rest) = (b.draw o).draw_frames rest := rfl
    rw [hfold]
    refine ⟨by rw [hih.1, hstep.2], fun _ => ?_⟩
    by_cases hr : rest = []
    · subst hr
      exact hstep.1
    · exact hih.2 hr

/-- C1, as stated, fails: a button whose count is the largest `unsigned`
value (4294967295), drawn on a frame with a key-down edge, is left with the
count 0, which is smaller than before and is not the previous count plus 1. -/
theorem Button.draw_wraps_at_max :
    (Button.draw ⟨lambda_a, false, false, 4294967295⟩ (fun _ => 32768)).key_count = 0 ∧
    (Button.draw ⟨lambda_a, false, false, 4294967295⟩ (fun _ => 32768)).key_count
      < 4294967295 ∧
    (Button.draw ⟨lambda_a, false, false, 4294967295⟩ (fun _ => 32768)).key_count
      ≠ 4294967295 + 1 := by
  decide

/-- C1 (amended): for every button state and every polled value, one call of
`Button::draw` leaves the count unchanged unless the key is down this frame
and was not down on the previous frame; on such an edge the new count is the
previous count plus 1 modulo 2^32.  So below the largest `unsigned` value the
count is not smaller than before and grows by exactly 1 on an edge, and at
the largest value an edge wraps it to 0. -/
theorem Button.draw_key_count (b : Button) (os : KeyState) :
    ((b.func os = true ∧ b.pushed_prev = false) →
      (b.draw os).key_count = (b.key_count + 1) % UINT_SIZE) ∧
    ((b.func os = true ∧ b.pushed_prev = false) → b.key_count + 1 < UINT_SIZE →
      (b.draw os).key_count = b.key_count + 1) ∧
    ((b.func os = true ∧ b.pushed_prev = false) → b.key_count + 1 = UINT_SIZE →
      (b.draw os).key_count = 0) ∧
    (¬ (b.func os = true ∧ b.pushed_prev = false) → (b.draw os).key_count = b.key_count) ∧
    (b.key_count + 1 < UINT_SIZE → b.key_count ≤ (b.draw os).key_count) := by
  cases hf : b.func os <;> cases hp : b.pushed_prev <;>
    simp [Button.draw, hf, hp]
  refine ⟨fun h => Nat.mod_eq_of_lt h, fun h => by rw [h, Nat.mod_self], fun h => ?_⟩
  rw [Nat.mod_eq_of_lt h]
  exact Nat.le_succ _

/-- Witness of `Button.draw_key_count`: a button at count 7 with a down-edge
is left at count 8. -/
theorem Button.draw_key_count_witness :
    (7 + 1 < UINT_SIZE) ∧
    (Button.draw ⟨lambda_a, false, false, 7⟩ (fun _ => 32768)).key_count = 7 + 1 :=
  ⟨by decide,
    (Button.draw_key_count ⟨lambda_a, false, false, 7⟩ (fun _ => 32768)).2.1
      ⟨rfl, rfl⟩ (by decide)⟩

/-- C2, as stated, fails: a button at the largest `unsigned` count whose key
was up before the hold, held down for three frames, ends with the count 0,
not with its previous count increased by 1. -/
theorem Button.hold_wraps_at_max :
    (Button.draw_frames ⟨lambda_a, false, false, 4294967295⟩
      [fun _ => 32768, fun _ => 32768, fun _ => 32768]).key_count = 0 ∧
    (Button.draw_frames ⟨lambda_a, false, false, 4294967295⟩
      [fun _ => 32768, fun _ => 32768, fun _ => 32768]).key_count ≠ 4294967295 + 1 := by
  decide

/-- C2 (amended): for every button whose key was not down on the frame
before the hold, drawing it on N >= 1 consecutive frames with the key down
executes the increment once, on the first frame: the first frame sets onpush
and leaves the count at the previous count plus 1 modulo 2^32 (exactly plus 1
below the largest `unsigned` value), the count after all N frames is that same
value, and onpush is false after each of the remaining N-1 frames. -/
theorem Button.hold_counts_once (b : Button) (os : KeyState) (held : List KeyState)
    (hprev : b.pushed_prev = false) (hdown : b.func os = true)
    (hheld : ∀ o ∈ held, b.func o = true) :
    (b.draw os).onpush = true ∧
    (b.draw os).key_count = (b.key_count + 1) % UINT_SIZE ∧
    (b.draw_frames (os :: held)).key_count = (b.key_count + 1) % UINT_SIZE ∧
    (b.key_count + 1 < UINT_SIZE →
      (b.draw_frames (os :: held)).key_count = b.key_count + 1) ∧
    (∀ pre suf, held = pre ++ suf → pre ≠ [] →
      (b.draw_frames (os :: pre)).onpush = false ∧
      (b.draw_frames (os :: pre)).key_count = (b.key_count + 1) % UINT_SIZE) := by
  have h1 : (b.draw os).onpush = true := by simp [Button.draw, hprev, hdown]
  have h2 : (b.draw os).key_count = (b.key_count + 1) % UINT_SIZE := by
    simp [Button.draw, hprev, hdown]
  have hprev1 : (b.draw os).pushed_prev = true := by
    rw [Button.draw_pushed_prev]; exact hdown
  have hall := Button.draw_frames_held held (b.draw os) hprev1 hheld
  have hfold : ∀ l, b.draw_frames (os :: l) = (b.draw os).draw_frames l := fun _ => rfl
  refine ⟨h1, h2, by rw [hfold, hall.1, h2], fun hlt => ?_, fun pre suf hsplit hne => ?_⟩
  · rw [hfold, hall.1, h2, Nat.mod_eq_of_lt hlt]
  · have hpre : ∀ o ∈ pre, (b.draw os).func o = true := fun o ho =>
      hheld o (by rw [hsplit]; exact List.mem_append_left suf ho)
    have hp := Button.draw_frames_held pre (b.draw os) hprev1 hpre
    rw [hfold]
    exact ⟨hp.2 hne, by rw [hp.1, h2]⟩

/-- Witness of `Button.hold_counts_once`: a button at count 7, key held for
three frames, ends at count 8. -/
theorem Button.hold_counts_once_witness :
    (Button.draw_frames ⟨lambda_a, false, false, 7⟩
      [fun _ => 32768, fun _ => 32768, fun _ => 32768]).key_count = 7 + 1 :=
  (Button.hold_counts_once ⟨lambda_a, false, false, 7⟩ (fun _ => 32768)
    [fun _ => 32768, fun _ => 32768] rfl rfl
    (by intro o ho; simp only [List.mem_cons, List.mem_singleton, List.not_mem_nil,
          or_false] at ho
        rcases ho with h | h <;> subst h <;> rfl)).2.2.2.1 (by decide)

/-! ## Counter: prune and kps -/

theorem mem_prune_spec (tpm : Nat) (now : Int) (log : List Int) (t : Int) :
    t ∈ prune_spec tpm now log ↔ t ∈ log ∧ ¬ to_ms tpm (now - t) > 1000 := by
  simp [prune_spec, keeps]

theorem prune_loop_fst (tpm : Nat) (now : Int) (log : List Int) :
    (Counter.prune_loop tpm now log 0 0).1 = prune_spec tpm now log := by
  rw [prune_loop_eq]
  simp [prune_spec]

/-- C7: for every log and every frame instant, the erase-while-iterating
loop of `Counter::draw` yields the list obtained by filtering the log with
the test that the age in whole milliseconds is not greater than 1000: an
entry survives exactly when it was in the log and does not fail the strict
test, and the survivors keep their relative order. -/
theorem Counter.prune_loop_eq_filter (tpm : Nat) (now : Int) (log : List Int) :
    (Counter.prune_loop tpm now log 0 0).1 = prune_spec tpm now log ∧
    (Counter.prune_loop tpm now log 0 0).1 =
      log.filter (fun t => !decide (to_ms tpm (now - t) > 1000)) ∧
    (∀ t, t ∈ (Counter.prune_loop tpm now log 0 0).1 ↔
      t ∈ log ∧ ¬ to_ms tpm (now - t) > 1000) ∧
    List.Sublist (Counter.prune_loop tpm now log 0 0).1 log := by
  rw [prune_loop_fst]
  refine ⟨rfl, rfl, fun t => mem_prune_spec tpm now log t, ?_⟩
  exact List.filter_sublist log

/-- C5: for every log and every frame instant, the count `kps_temp` that the
prune loop returns is the length of the log it returns (a value between 0 and
the size of the log it was given), and after `Counter::draw` the value `kps`
is the length of the log. -/
theorem Counter.kps_eq_log_length (tpm : Nat) (now : Int) (log : List Int) (f : Frame)
    (c : Counter) :
    (Counter.prune_loop tpm now log 0 0).2 =
      ((Counter.prune_loop tpm now log 0 0).1.length : Nat) ∧
    (Counter.prune_loop tpm now log 0 0).2 ≤ (log.length : Nat) ∧
    (Counter.draw tpm f c).kps = ((Counter.draw tpm f c).log.length : Nat) := by
  refine ⟨?_, ?_, ?_⟩
  · rw [prune_loop_eq]
    simp
  · rw [prune_loop_eq]
    simp only [List.drop_zero, zero_add, Nat.cast_le]
    exact List.length_filter_le _ log
  · rw [draw_eq]

/-- C3, as stated, fails: on a nanosecond clock an entry logged at instant 0
is still in the log after the prune of a frame at 1000.5 ms, although its age
is more than 1000 milliseconds. -/
theorem Counter.prune_keeps_older_than_1000ms :
    (0 : Int) ∈ (Counter.prune_loop 1000000 1000500000 [0] 0 0).1 ∧
    ¬ ((1000500000 : Int) - 0 ≤ 1000 * 1000000) := by
  rw [prune_loop_fst]
  decide

/-- C3 (amended): for every log and every frame instant, after the prune
loop every entry left in the log has an age that, converted to whole
milliseconds (rounding toward zero), is at most 1000; at the native
resolution of the clock the age is less than 1001 milliseconds. -/
theorem Counter.prune_age_bound (tpm : Nat) (now : Int) (log : List Int) (t : Int)
    (htpm : 0 < tpm) (ht : t ∈ (Counter.prune_loop tpm now log 0 0).1) :
    to_ms tpm (now - t) ≤ 1000 ∧ now - t < 1001 * tpm := by
  rw [prune_loop_fst, mem_prune_spec] at ht
  have h : to_ms tpm (now - t) ≤ 1000 := not_lt.mp ht.2
  exact ⟨h, (to_ms_le_iff tpm htpm (now - t)).mp h⟩

/-- Witness of `Counter.prune_age_bound` on a nanosecond clock: the entry 0
that survives the prune at 1000.5 ms has an age below 1001 ms. -/
theorem Counter.prune_age_bound_witness :
    to_ms 1000000 (1000500000 - 0) ≤ 1000 ∧ (1000500000 : Int) - 0 < 1001 * (1000000 : Nat) :=
  Counter.prune_age_bound 1000000 1000500000 [0] 0 (by decide)
    (by rw [prune_loop_fst]; decide)

/-- C4, as stated, fails: in the first frame from the initial state with the
key A down, the first button counts the press (its count becomes 1), yet the
log is empty after that frame. -/
theorem Counter.edge_frame_logs_nothing :
    (Counter.draw 1000000 ⟨5, fun k => if k = 65 then 32768 else 0⟩ Counter.init).buttons.map
      Button.key_count = [1, 0] ∧
    (Counter.draw 1000000 ⟨5, fun k => if k = 65 then 32768 else 0⟩ Counter.init).log = [] := by
  rw [draw_eq]
  decide

/-- C4 (amended): for every state and every frame, `Counter::draw` appends
one entry equal to the timestamp of the frame for each button whose onpush
flag is set when the frame starts, whatever the keys do in that frame, and
draws every button.  Hence the entry for a key-down edge detected in one
frame (the frame whose call increments the count) is appended by the next
call of `Counter::draw`, with the timestamp of that next frame, one entry per
button with an edge. -/
theorem Counter.draw_logs_previous_edges (tpm : Nat) (f g : Frame) (c : Counter) :
    (Counter.draw tpm f c).buttons = c.buttons.map (fun b => b.draw f.os) ∧
    (Counter.draw tpm f c).log =
      prune_spec tpm f.now c.log ++
        List.replicate (c.buttons.countP Button.get_onpush) f.now ∧
    (Counter.draw tpm g (Counter.draw tpm f c)).log =
      prune_spec tpm g.now (Counter.draw tpm f c).log ++
        List.replicate (c.buttons.countP (fun b => b.func f.os && !b.pushed_prev)) g.now := by
  refine ⟨by rw [draw_eq], by rw [draw_eq], ?_⟩
  rw [draw_eq tpm g, draw_eq tpm f]
  simp only [List.countP_map]
  rfl

/-! ## The key lambdas -/

/-- C8, as stated, fails: for the answer 1 (pressed since the previous
query, no longer down) both lambdas set pushed to true although the most
significant bit, which says that the key is down, is clear. -/
theorem lambda_true_when_key_up :
    lambda_a (fun _ => 1) = true ∧ lambda_s (fun _ => 1) = true ∧
    key_is_down 1 = false := by
  decide

/-- C8 (amended): for every answer v of `GetAsyncKeyState`, the lambda bound
to each button sets pushed to true exactly when v is not 0: for every v whose
most significant bit is set (key down) and also for every other non-zero v,
such as 1; pushed is false only for the answer 0. -/
theorem lambda_pushed_iff_nonzero (os : KeyState) :
    (lambda_a os = true ↔ os char_0 ≠ 0) ∧
    (lambda_s os = true ↔ os char_1 ≠ 0) ∧
    (lambda_a os = false ↔ os char_0 = 0) ∧
    (lambda_s os = false ↔ os char_1 = 0) ∧
    (key_is_down (os char_0) = true → lambda_a os = true) ∧
    (key_is_down (os char_1) = true → lambda_s os = true) := by
  have hz : ∀ v : Nat, key_is_down v = true → v ≠ 0 := by
    intro v hv h0
    rw [h0] at hv
    simp [key_is_down] at hv
  refine ⟨?_, ?_, ?_, ?_, fun h => ?_, fun h => ?_⟩
  · simp [lambda_a, short_to_bool]
  · simp [lambda_s, short_to_bool]
  · simp [lambda_a, short_to_bool]
  · simp [lambda_s, short_to_bool]
  · simpa [lambda_a, short_to_bool] using hz _ h
  · simpa [lambda_s, short_to_bool] using hz _ h

/-- Witness of `lambda_pushed_iff_nonzero`: with the key A down (answer
32768, most significant bit set) the first lambda sets pushed. -/
theorem lambda_pushed_iff_nonzero_witness :
    lambda_a (fun _ => 32768) = true :=
  (lambda_pushed_iff_nonzero (fun _ => 32768)).2.2.2.2.1 (by decide)

/-! ## Conservation of presses -/

theorem pushes_cons (tpm : Nat) (c : Counter) (f : Frame) (fs : List Frame) :
    pushes tpm c (f :: fs) = flagged c + pushes tpm (Counter.draw tpm f c) fs := by
  simp [pushes, draw_buttons_snd, flagged]

theorem pushes_append (tpm : Nat) (fs gs : List Frame) (c : Counter) :
    pushes tpm c (fs ++ gs) = pushes tpm c fs + pushes tpm (run tpm c fs) gs := by
  induction fs generalizing c with
  | nil => simp [pushes, run_nil]
  | cons f fs ih =>
    rw [List.cons_append, pushes_cons, pushes_cons, ih, run_cons, Nat.add_assoc]

theorem buttons_step (os : KeyState) (bs : List Button)
    (hw : bs.all (fun b => !(b.func os && !b.pushed_prev) ||
      decide (b.key_count + 1 < UINT_SIZE)) = true) :
    ((bs.map (fun b => b.draw os)).map Button.key_count).sum =
      (bs.map Button.key_count).sum +
        (bs.map (fun b => b.draw os)).countP Button.get_onpush := by
  induction bs with
  | nil => rfl
  | cons b bs ih =>
    simp only [List.all_cons, Bool.and_eq_true] at hw
    have hb := hw.1
    simp only [List.map_cons, List.sum_cons, List.countP_cons, ih hw.2]
    cases he : (b.func os && !b.pushed_prev)
    · have h1 : (b.draw os).key_count = b.key_count := by
        simp only [Button.draw, he]; rfl
      have h2 : (b.draw os).get_onpush = false := by
        simp only [Button.get_onpush, Button.draw, he]
      rw [h1, h2]
      simp only [Bool.false_eq_true, if_false]
      omega
    · rw [he] at hb
      have hlt : b.key_count + 1 < UINT_SIZE := by simpa using hb
      have h1 : (b.draw os).key_count = b.key_count + 1 := by
        simp only [Button.draw, he, if_true]
        exact Nat.mod_eq_of_lt hlt
      have h2 : (b.draw os).get_onpush = true := by
        simp only [Button.get_onpush, Button.draw, he]
      rw [h1, h2]
      simp only [if_true]
      omega

theorem conservation_from (tpm : Nat) (fs : List Frame) (c : Counter)
    (hw : no_wrap tpm c fs = true) :
    pushes tpm c fs + flagged (run tpm c fs) + total_count c =
      total_count (run tpm c fs) + flagged c := by
  induction fs generalizing c with
  | nil => simp [pushes, run_nil, Nat.add_comm]
  | cons f fs ih =>
    simp only [no_wrap, Bool.and_eq_true] at hw
    have hstep : total_count (Counter.draw tpm f c) =
        total_count c + flagged (Counter.draw tpm f c) := by
      have := buttons_step f.os c.buttons hw.1
      simpa [total_count, flagged, draw_eq] using this
    have hih := ih (Counter.draw tpm f c) hw.2
    rw [pushes_cons, run_cons]
    omega

/-- C9: for every sequence of frames of `Counter::draw` from the initial
state in which no press count wraps, after the frames the number of
timestamps ever appended to the log plus the number of buttons whose onpush
flag is set equals the sum of the press counts; the next frame appends
exactly one entry for each button whose flag is set, so every counted press
is logged once, on the frame after the one that counted it, and two buttons
with an edge in the same frame give two entries. -/
theorem Counter.presses_conserved (tpm : Nat) (frames : List Frame) (g : Frame)
    (hw : no_wrap tpm Counter.init frames = true) :
    pushes tpm Counter.init frames + flagged (run tpm Counter.init frames) =
      total_count (run tpm Counter.init frames) ∧
    pushes tpm Counter.init (frames ++ [g]) =
      pushes tpm Counter.init frames + flagged (run tpm Counter.init frames) ∧
    pushes tpm Counter.init (frames ++ [g]) = total_count (run tpm Counter.init frames) := by
  have h := conservation_from tpm frames Counter.init hw
  have h0 : total_count Counter.init = 0 := rfl
  have h1 : flagged Counter.init = 0 := rfl
  have hp : pushes tpm Counter.init (frames ++ [g]) =
      pushes tpm Counter.init frames + flagged (run tpm Counter.init frames) := by
    rw [pushes_append, pushes_cons]
    simp [pushes]
  refine ⟨by omega, hp, by omega⟩

/-- Witness of `Counter.presses_conserved`: A pressed, then A held and S
pressed, then both released; after these three frames two timestamps have
been appended, no flag is set and the counts sum to 2. -/
theorem Counter.presses_conserved_witness :
    pushes 1000000 Counter.init
        [⟨0, fun k => if k = 65 then 32768 else 0⟩, ⟨5, fun _ => 32768⟩, ⟨9, fun _ => 0⟩] +
      flagged (run 1000000 Counter.init
        [⟨0, fun k => if k = 65 then 32768 else 0⟩, ⟨5, fun _ => 32768⟩, ⟨9, fun _ => 0⟩]) =
      total_count (run 1000000 Counter.init
        [⟨0, fun k => if k = 65 then 32768 else 0⟩, ⟨5, fun _ => 32768⟩, ⟨9, fun _ => 0⟩]) :=
  (Counter.presses_conserved 1000000
    [⟨0, fun k => if k = 65 then 32768 else 0⟩, ⟨5, fun _ => 32768⟩, ⟨9, fun _ => 0⟩]
    ⟨10, fun _ => 0⟩ (by simp only [no_wrap, draw_eq]; decide)).1

/-! ## Order of the log -/

theorem keeps_mono (tpm : Nat) (now : Int) {t u : Int} (h : t ≤ u)
    (ht : keeps tpm now t = true) : keeps tpm now u = true := by
  simp only [keeps, Bool.not_eq_true', decide_eq_false_iff_not, not_lt] at ht ⊢
  exact le_trans (to_ms_mono tpm (by omega)) ht

theorem sorted_split (tpm : Nat) (now : Int) (log : List Int)
    (hs : log.Pairwise (fun a b => a ≤ b)) :
    log = log.filter (fun t => !keeps tpm now t) ++ log.filter (keeps tpm now) := by
  induction log with
  | nil => rfl
  | cons t rest ih =>
    rw [List.pairwise_cons] at hs
    cases hk : keeps tpm now t
    · rw [List.filter_cons_of_pos (by simp [hk]), List.filter_cons_of_neg (by simp [hk]),
        List.cons_append, ← ih hs.2]
    · have hall : ∀ u ∈ t :: rest, keeps tpm now u = true := by
        intro u hu
        rcases List.mem_cons.mp hu with h | h
        · rw [h]; exact hk
        · exact keeps_mono tpm now (hs.1 u h) hk
      have h1 : (t :: rest).filter (fun t => !keeps tpm now t) = [] := by
        rw [List.filter_eq_nil_iff]
        intro u hu
        simp [hall u hu]
      have h2 : (t :: rest).filter (keeps tpm now) = t :: rest :=
        List.filter_eq_self.mpr hall
      rw [h1, h2]
      rfl

theorem sorted_push (log : List Int) (n : Nat) (now : Int)
    (hs : log.Pairwise (fun a b => a ≤ b)) (hb : ∀ t ∈ log, t ≤ now) :
    (log ++ List.replicate n now).Pairwise (fun a b => a ≤ b) := by
  rw [List.pairwise_append]
  refine ⟨hs, ?_, ?_⟩
  · rw [List.pairwise_replicate]
    exact Or.inr (le_refl now)
  · intro a ha b hb1
    rw [List.eq_of_mem_replicate hb1]
    exact hb a ha

theorem draw_log_sorted (tpm : Nat) (f : Frame) (c : Counter)
    (hs : c.log.Pairwise (fun a b => a ≤ b)) (hb : ∀ t ∈ c.log, t ≤ f.now) :
    (Counter.draw tpm f c).log.Pairwise (fun a b => a ≤ b) ∧
      ∀ t ∈ (Counter.draw tpm f c).log, t ≤ f.now := by
  have hlog : (Counter.draw tpm f c).log = prune_spec tpm f.now c.log ++
      List.replicate (c.buttons.countP Button.get_onpush) f.now := by rw [draw_eq]
  have hsub : List.Sublist (prune_spec tpm f.now c.log) c.log := List.filter_sublist c.log
  have hb1 : ∀ t ∈ prune_spec tpm f.now c.log, t ≤ f.now := fun t ht => hb t (hsub.subset ht)
  rw [hlog]
  refine ⟨sorted_push _ _ _ (hs.sublist hsub) hb1, fun t ht => ?_⟩
  rcases List.mem_append.mp ht with h | h
  · exact hb1 t h
  · rw [List.eq_of_mem_replicate h]

theorem run_log_sorted (tpm : Nat) (fs : List Frame) (c : Counter) (hi : Int)
    (hs : c.log.Pairwise (fun a b => a ≤ b))
    (hb : ∀ t ∈ c.log, t ≤ hi ∧ ∀ f ∈ fs, t ≤ f.now)
    (ht : (fs.map Frame.now).Pairwise (fun a b => a ≤ b))
    (hhi : ∀ f ∈ fs, f.now ≤ hi) :
    (run tpm c fs).log.Pairwise (fun a b => a ≤ b) ∧ ∀ t ∈ (run tpm c fs).log, t ≤ hi := by
  induction fs generalizing c with
  | nil => exact ⟨hs, fun t h => (hb t h).1⟩
  | cons f fs ih =>
    rw [run_cons]
    rw [List.map_cons, List.pairwise_cons] at ht
    have hf := draw_log_sorted tpm f c hs
      (fun t h => (hb t h).2 f (List.mem_cons_self f fs))
    refine ih (Counter.draw tpm f c) hf.1 (fun t h => ⟨?_, fun g hg => ?_⟩) ht.2
      (fun g hg => hhi g (List.mem_cons_of_mem f hg))
    · exact le_trans (hf.2 t h) (hhi f (List.mem_cons_self f fs))
    · exact le_trans (hf.2 t h) (ht.1 g.now (List.mem_map_of_mem Frame.now hg))

/-- C10: for every sequence of frames from the initial state whose
timestamps are non-decreasing, after each `Counter::draw` the log is sorted in
non-decreasing order and every entry is at most the timestamp of that frame;
and the log that the prune of that frame receives is the list of the removed
entries followed by the log that the prune leaves, so the removed entries are
an initial segment. -/
theorem Counter.log_sorted_and_bounded (tpm : Nat) (pre : List Frame) (f : Frame)
    (ht : ((pre ++ [f]).map Frame.now).Pairwise (fun a b => a ≤ b)) :
    (run tpm Counter.init (pre ++ [f])).log.Pairwise (fun a b => a ≤ b) ∧
    (∀ t ∈ (run tpm Counter.init (pre ++ [f])).log, t ≤ f.now) ∧
    (Counter.draw_buttons f.now f.os (run tpm Counter.init pre).buttons
        (run tpm Counter.init pre).log).2 =
      (Counter.draw_buttons f.now f.os (run tpm Counter.init pre).buttons
        (run tpm Counter.init pre).log).2.filter
          (fun t => decide (to_ms tpm (f.now - t) > 1000)) ++
        (run tpm Counter.init (pre ++ [f])).log := by
  have hmax : ∀ g ∈ pre ++ [f], g.now ≤ f.now := by
    intro g hg
    rw [List.map_append, List.pairwise_append] at ht
    rcases List.mem_append.mp hg with h | h
    · exact ht.2.2 g.now (List.mem_map_of_mem Frame.now h) f.now (by simp)
    · rw [List.mem_singleton.mp h]
  have hall := run_log_sorted tpm (pre ++ [f]) Counter.init f.now List.Pairwise.nil
    (fun t h => absurd h (List.not_mem_nil t)) ht hmax
  refine ⟨hall.1, hall.2, ?_⟩
  have hpre : (pre.map Frame.now).Pairwise (fun a b => a ≤ b) := by
    rw [List.map_append, List.pairwise_append] at ht
    exact ht.1
  have hmid := run_log_sorted tpm pre Counter.init f.now List.Pairwise.nil
    (fun t h => absurd h (List.not_mem_nil t)) hpre
    (fun g hg => hmax g (List.mem_append_left [f] hg))
  have hlast : (run tpm Counter.init (pre ++ [f])).log =
      (Counter.draw_buttons f.now f.os (run tpm Counter.init pre).buttons
        (run tpm Counter.init pre).log).2.filter (keeps tpm f.now) := by
    rw [run_append, run_cons, run_nil]
    simp only [Counter.draw, prune_loop_fst, prune_spec]
  rw [hlast, draw_buttons_snd]
  have hsplit := sorted_split tpm f.now _ (sorted_push _
    ((run tpm Counter.init pre).buttons.countP Button.get_onpush) f.now hmid.1 hmid.2)
  have hfun : (fun t => !keeps tpm f.now t) =
      (fun t => decide (to_ms tpm (f.now - t) > 1000)) := by
    funext t
    simp [keeps]
  rw [hfun] at hsplit
  exact hsplit

/-- Witness of `Counter.log_sorted_and_bounded`: three frames at the
non-decreasing instants 0, 5 and 2000000000 of a nanosecond clock. -/
theorem Counter.log_sorted_and_bounded_witness :
    (run 1000000 Counter.init ([⟨0, fun _ => 32768⟩, ⟨5, fun _ => 0⟩] ++
      [⟨2000000000, fun _ => 0⟩])).log.Pairwise (fun a b => a ≤ b) :=
  (Counter.log_sorted_and_bounded 1000000 [⟨0, fun _ => 32768⟩, ⟨5, fun _ => 0⟩]
    ⟨2000000000, fun _ => 0⟩ (by decide)).1

/-! ## One press, then silence -/

theorem keeps_earlier (tpm : Nat) (t : Int) {now later : Int} (h : now ≤ later)
    (hk : keeps tpm later t = true) : keeps tpm now t = true := by
  simp only [keeps, Bool.not_eq_true', decide_eq_false_iff_not, not_lt] at hk ⊢
  exact le_trans (to_ms_mono tpm (by omega)) hk

theorem idle_draw (tpm : Nat) (g : Frame) (c : Counter) (n m : Nat)
    (hc : c.buttons = [⟨lambda_a, false, false, n⟩, ⟨lambda_s, false, false, m⟩])
    (hg : lambda_a g.os = false ∧ lambda_s g.os = false) :
    (Counter.draw tpm g c).buttons = c.buttons ∧
      (Counter.draw tpm g c).log = prune_spec tpm g.now c.log ∧
      (Counter.draw tpm g c).kps = ((prune_spec tpm g.now c.log).length : Nat) := by
  rw [draw_eq, hc]
  simp [Button.draw, Button.get_onpush, hg.1, hg.2]

theorem idle_run_nil (tpm : Nat) (fs : List Frame) (c : Counter) (n m : Nat)
    (hc : c.buttons = [⟨lambda_a, false, false, n⟩, ⟨lambda_s, false, false, m⟩])
    (hl : c.log = []) (hk : c.kps = 0)
    (hfs : ∀ g ∈ fs, lambda_a g.os = false ∧ lambda_s g.os = false) :
    (run tpm c fs).kps = 0 := by
  induction fs generalizing c with
  | nil => exact hk
  | cons g fs ih =>
    have hd := idle_draw tpm g c n m hc (hfs g (List.mem_cons_self g fs))
    rw [run_cons]
    refine ih (Counter.draw tpm g c) (by rw [hd.1, hc]) (by rw [hd.2.1, hl]; rfl)
      (by rw [hd.2.2, hl]; rfl) (fun g1 h1 => hfs g1 (List.mem_cons_of_mem g h1))

theorem idle_run_single (tpm : Nat) (t0 : Int) (fs : List Frame) (f : Frame) (c : Counter)
    (n m : Nat)
    (hc : c.buttons = [⟨lambda_a, false, false, n⟩, ⟨lambda_s, false, false, m⟩])
    (hl : c.log = [t0])
    (hfs : ∀ g ∈ fs ++ [f], lambda_a g.os = false ∧ lambda_s g.os = false)
    (ht : ((fs ++ [f]).map Frame.now).Pairwise (fun a b => a ≤ b)) :
    (run tpm c (fs ++ [f])).kps = if to_ms tpm (f.now - t0) ≤ 1000 then 1 else 0 := by
  induction fs generalizing c with
  | nil =>
    have hd := idle_draw tpm f c n m hc (hfs f (by simp))
    rw [List.nil_append, run_cons, run_nil, hd.2.2, hl]
    by_cases h : to_ms tpm (f.now - t0) ≤ 1000
    · simp [prune_spec, keeps, h]
    · simp [prune_spec, keeps, h, not_le.mp h]
  | cons g fs ih =>
    have hd := idle_draw tpm g c n m hc (hfs g (by simp))
    rw [List.cons_append, List.map_cons, List.pairwise_cons] at ht
    have hrest : ∀ g1 ∈ fs ++ [f], lambda_a g1.os = false ∧ lambda_s g1.os = false :=
      fun g1 h1 => hfs g1 (by rw [List.cons_append]; exact List.mem_cons_of_mem g h1)
    have hgf : g.now ≤ f.now := ht.1 f.now (List.mem_map_of_mem Frame.now (by simp))
    rw [List.cons_append, run_cons]
    cases hk : keeps tpm g.now t0
    · have hlog : (Counter.draw tpm g c).log = [] := by
        rw [hd.2.1, hl]; simp [prune_spec, hk]
      have hkps : (Counter.draw tpm g c).kps = 0 := by
        rw [hd.2.2, hl]; simp [prune_spec, hk]
      rw [idle_run_nil tpm (fs ++ [f]) (Counter.draw tpm g c) n m (by rw [hd.1, hc]) hlog hkps
        hrest]
      have hnot : ¬ to_ms tpm (f.now - t0) ≤ 1000 := by
        intro hle
        have hkf : keeps tpm f.now t0 = true := by simp [keeps, hle]
        rw [keeps_earlier tpm t0 hgf hkf] at hk
        exact Bool.noConfusion hk
      rw [if_neg hnot]
    · have hlog : (Counter.draw tpm g c).log = [t0] := by
        rw [hd.2.1, hl]; simp [prune_spec, hk]
      exact ih (Counter.draw tpm g c) (by rw [hd.1, hc]) hlog hrest ht.2

theorem press_pair (tpm : Nat) (f1 f2 : Frame)
    (h1 : lambda_a f1.os ≠ lambda_s f1.os)
    (h2 : lambda_a f2.os = false ∧ lambda_s f2.os = false) :
    (run tpm Counter.init [f1, f2]).buttons =
        [⟨lambda_a, false, false, if lambda_a f1.os then 1 else 0⟩,
          ⟨lambda_s, false, false, if lambda_s f1.os then 1 else 0⟩] ∧
      (run tpm Counter.init [f1, f2]).log = [f2.now] ∧
      (run tpm Counter.init [f1, f2]).kps = 1 := by
  rw [run_cons, run_cons, run_nil, draw_eq tpm f2, draw_eq tpm f1]
  cases ha : lambda_a f1.os <;> cases hs : lambda_s f1.os <;>
    simp_all [Counter.init, Button.draw, Button.get_onpush, prune_spec, UINT_SIZE]

/-- C6, as stated, fails: on a nanosecond clock, A is down at instant 0 and
up at 16 ms, where the press is logged; a frame 1000.5 ms after the logged
instant, with no new press, still shows kps 1 although more than 1000 ms have
passed. -/
theorem Counter.kps_still_one_after_1000ms :
    (run 1000000 Counter.init
      [⟨0, fun k => if k = 65 then 32768 else 0⟩, ⟨16000000, fun _ => 0⟩,
        ⟨1016500000, fun _ => 0⟩]).kps = 1 ∧
    (1000 * 1000000 < (1016500000 : Int) - 16000000) := by
  simp only [run, List.foldl, draw_eq]
  decide

/-- C6 (amended): from the initial state, for a pair of consecutive frames
in which exactly one key is polled down on the first frame and both are
polled up on the second, after the pair that button has press count 1, the
other has 0, and kps is 1.  On every later frame of a run with no new press
and non-decreasing timestamps, kps is 1 when the time since the logged
instant (the timestamp of the second frame), converted to whole milliseconds
rounding toward zero, is at most 1000, and 0 otherwise: kps stays 1 while
less than 1001 ms have passed and is 0 from 1001 ms on. -/
theorem Counter.single_press_kps (tpm : Nat) (f1 f2 : Frame) (rest : List Frame) (f : Frame)
    (h1 : lambda_a f1.os ≠ lambda_s f1.os)
    (h2 : lambda_a f2.os = false ∧ lambda_s f2.os = false)
    (hrest : ∀ g ∈ rest ++ [f], lambda_a g.os = false ∧ lambda_s g.os = false)
    (ht : ((rest ++ [f]).map Frame.now).Pairwise (fun a b => a ≤ b)) :
    (run tpm Counter.init [f1, f2]).buttons.map Button.key_count =
      [if lambda_a f1.os then 1 else 0, if lambda_s f1.os then 1 else 0] ∧
    total_count (run tpm Counter.init [f1, f2]) = 1 ∧
    (run tpm Counter.init [f1, f2]).kps = 1 ∧
    (run tpm Counter.init (f1 :: f2 :: (rest ++ [f]))).kps =
      (if to_ms tpm (f.now - f2.now) ≤ 1000 then 1 else 0) ∧
    (0 < tpm → f.now - f2.now < 1001 * tpm →
      (run tpm Counter.init (f1 :: f2 :: (rest ++ [f]))).kps = 1) ∧
    (0 < tpm → 1001 * tpm ≤ f.now - f2.now →
      (run tpm Counter.init (f1 :: f2 :: (rest ++ [f]))).kps = 0) := by
  have hp := press_pair tpm f1 f2 h1 h2
  have hrun : run tpm Counter.init (f1 :: f2 :: (rest ++ [f])) =
      run tpm (run tpm Counter.init [f1, f2]) (rest ++ [f]) := by
    rw [← run_append]; rfl
  have hk := idle_run_single tpm f2.now rest f (run tpm Counter.init [f1, f2]) _ _ hp.1 hp.2.1
    hrest ht
  rw [← hrun] at hk
  refine ⟨by rw [hp.1]; rfl, ?_, hp.2.2, hk, fun hpos hlt => ?_, fun hpos hge => ?_⟩
  · rw [total_count, hp.1]
    cases ha : lambda_a f1.os <;> cases hs : lambda_s f1.os <;> simp_all
  · rw [hk, if_pos ((to_ms_le_iff tpm hpos _).mpr hlt)]
  · rw [hk, if_neg (fun hle => absurd ((to_ms_le_iff tpm hpos _).mp hle) (not_lt.mpr hge))]

/-- Witness of `Counter.single_press_kps` on a nanosecond clock: A down at
instant 0, up at 16 ms, then idle frames at 500 ms and at 1017 ms; on the
last one 1001 ms have passed since the logged instant and kps is 0. -/
theorem Counter.single_press_kps_witness :
    (run 1000000 Counter.init
      (⟨0, fun k => if k = 65 then 32768 else 0⟩ :: ⟨16000000, fun _ => 0⟩ ::
        ([⟨500000000, fun _ => 0⟩] ++ [⟨1017000000, fun _ => 0⟩]))).kps = 0 :=
  (Counter.single_press_kps 1000000 ⟨0, fun k => if k = 65 then 32768 else 0⟩
    ⟨16000000, fun _ => 0⟩ [⟨500000000, fun _ => 0⟩] ⟨1017000000, fun _ => 0⟩
    (by decide) (by decide)
    (by intro g hg
        simp only [List.singleton_append, List.mem_cons, List.mem_singleton,
          List.not_mem_nil, or_false] at hg
        rcases hg with h | h <;> subst h <;> exact ⟨rfl, rfl⟩)
    (by decide)).2.2.2.2.2 (by decide) (by decide)

end KeyCounter
